import Mathlib

/-!
Verification of the immutable list core of `fslash/collections/list.py`.

The Python class hierarchy `List` / `Cons` / `_Nil` is embedded as the
inductive type `FList`.  A `Cons` cell stores its head, its tail and the
cached length `_len` computed by `Cons.__init__` as `1 + len(tail)`; the
cache is carried explicitly in the `cell` constructor so that the cached
length invariant can be stated and checked rather than assumed.

Fallible operations (`head`, `tail`, `skip`, `take`, `skip_last`,
`take_last`, `slice`) return `Except Err`, where `Err` mirrors the Python
exception classes raised by the source (`IndexError`, `ValueError`,
`TypeError`).
-/

set_option autoImplicit false

namespace Fslash

/-- The exception classes raised by the source code. -/
inductive Err where
  | indexError : Err
  | valueError : Err
  | typeError : Err
deriving DecidableEq

/-- The two-variant recursive list: `_Nil` and `Cons`.  A `cell` carries the
head, the tail and the cached integer length stored by `Cons.__init__`. -/
inductive FList (α : Type) where
  | nil : FList α
  | cell (hd : α) (tl : FList α) (clen : Nat) : FList α
deriving DecidableEq

namespace FList

variable {α β : Type}

/-- `__len__`: the cached length (`Cons._len`, and `0` for `_Nil`). -/
def fLen : FList α → Nat
  | .nil => 0
  | .cell _ _ n => n

/-- `Cons.__init__(head, tail)`: stores the pair and `_len = 1 + len(tail)`,
reading the tail's cached length. -/
def mkCons (h : α) (t : FList α) : FList α := .cell h t (1 + fLen t)

/-- The actual number of elements of a list (specification-level count,
independent of the caches). -/
def size : FList α → Nat
  | .nil => 0
  | .cell _ t _ => 1 + size t

/-- The cached-length invariant: at every reachable cell the cached length
equals one plus the number of elements of the tail. -/
def wfb : FList α → Bool
  | .nil => true
  | .cell _ t n => (n == 1 + size t) && wfb t

/-- `__iter__`: head-to-tail iteration order, as a Lean list. -/
def toList : FList α → List α
  | .nil => []
  | .cell h t _ => h :: toList t

/-- `is Nil` identity test (the empty list is a process-wide singleton). -/
def isNil : FList α → Bool
  | .nil => true
  | .cell _ _ _ => false

/-- `cons(element)`: both variants return `Cons(element, self)`. -/
def cons (x : α) (xs : FList α) : FList α := mkCons x xs

/-- `singleton(value) = Cons(value, Nil)`. -/
def singleton (v : α) : FList α := mkCons v .nil

/-- `head()`: first element; `_Nil.head` raises `IndexError`. -/
def head : FList α → Except Err α
  | .nil => .error .indexError
  | .cell h _ _ => .ok h

/-- `tail()`: the tail; `_Nil.tail` raises `IndexError`. -/
def tail : FList α → Except Err (FList α)
  | .nil => .error .indexError
  | .cell _ t _ => .ok t

/-- `try_head()`: `Some(head)` on a cell, `Nothing` on `_Nil`. -/
def tryHead : FList α → Option α
  | .nil => none
  | .cell h _ _ => some h

/-- `append(other)`: `_Nil.append(b) = b`;
`Cons.append(b) = Cons(head, tail.append(b))`. -/
def append : FList α → FList α → FList α
  | .nil, other => other
  | .cell h t _, other => mkCons h (append t other)

/-- `map(mapper)`: rebuilds every cell with the mapped head. -/
def map (f : α → β) : FList α → FList β
  | .nil => .nil
  | .cell h t _ => mkCons (f h) (map f t)

/-- `filter(predicate)`: keeps the cells whose head satisfies the predicate,
preserving relative order. -/
def filter (p : α → Bool) : FList α → FList α
  | .nil => .nil
  | .cell h t _ =>
    let filtered := filter p t
    if p h then mkCons h filtered else filtered

/-- `of_option(option)`: singleton on `Some`, empty on `Nothing`. -/
def of_option : Option α → FList α
  | some v => mkCons v .nil
  | none => .nil

/-- `choose(chooser)`: `of_option(chooser(head)).append(tail.choose(chooser))`. -/
def choose (f : α → Option β) : FList α → FList β
  | .nil => .nil
  | .cell h t _ => (of_option (f h)).append (choose f t)

/-- `collect(mapping)`: `mapping(head).append(tail.collect(mapping))`. -/
def collect (f : α → FList β) : FList α → FList β
  | .nil => .nil
  | .cell h t _ => (f h).append (collect f t)

/-- `skip(count)`: drops the first `count` elements; `_Nil.skip` raises
`ValueError` when `count != 0`. -/
def skip : Int → FList α → Except Err (FList α)
  | count, .nil => if count = 0 then .ok .nil else .error .valueError
  | count, .cell h t c =>
    if count = 0 then .ok (.cell h t c) else skip (count - 1) t

/-- `take(count)`: keeps the first `count` elements; `_Nil.take` raises
`ValueError` when `count != 0` (there is no clamping). -/
def take : Int → FList α → Except Err (FList α)
  | count, .nil => if count = 0 then .ok .nil else .error .valueError
  | count, .cell h t _ =>
    if count = 0 then .ok .nil
    else Except.map (fun q => mkCons h q) (take (count - 1) t)

/-- `skip_last(count)`: `queue = tail if tail is Nil else tail.skip_last(count)`;
then `Cons(head, queue) if len(tail) >= count else queue`.  `_Nil.skip_last`
raises `ValueError` when `count != 0`. -/
def skip_last : Int → FList α → Except Err (FList α)
  | count, .nil => if count = 0 then .ok .nil else .error .valueError
  | count, .cell h t c =>
    if count = 0 then .ok (.cell h t c)
    else
      Except.map (fun queue => if (fLen t : Int) ≥ count then mkCons h queue else queue)
        (if isNil t then .ok t else skip_last count t)

/-- `take_last(count)`: `queue = tail if tail is Nil else tail.take_last(count)`;
then `Cons(head, queue) if len(queue) < count else queue`.  `_Nil.take_last`
raises `ValueError` when `count != 0`. -/
def take_last : Int → FList α → Except Err (FList α)
  | count, .nil => if count = 0 then .ok .nil else .error .valueError
  | count, .cell h t _ =>
    if count = 0 then .ok .nil
    else
      Except.map (fun queue => if (fLen queue : Int) < count then mkCons h queue else queue)
        (if isNil t then .ok t else take_last count t)

/-- `__eq__`: `_Nil.__eq__(other) = (other is Nil)`;
`Cons.__eq__(other)` is `False` when `other is Nil`, otherwise
`head == other.head() and tail == other.tail()`. -/
def fEq [DecidableEq α] : FList α → FList α → Bool
  | .nil, other => isNil other
  | .cell _ _ _, .nil => false
  | .cell h t _, .cell h2 t2 _ => decide (h = h2) && fEq t t2

/-- Modelled from the spec: `Seq.fold_back(folder, seq)(init)` is the
lazy-sequence collaborator's right fold, processing elements from the end of
the sequence toward the beginning (the source `fslash/collections/seq.py` is
not part of the provided core). -/
def foldBack (folder : α → β → β) (xs : List α) (init : β) : β :=
  List.foldr folder init xs

/-- `of_seq(xs)`: right fold of `Cons` over the input, terminated by `Nil`,
so the last element becomes the innermost tail. -/
def of_seq (xs : List α) : FList α :=
  foldBack (fun v acc => mkCons v acc) xs .nil

/-- `concat(sources)`: right fold of `append` (`xs + acc`) over the sources,
terminated by `Nil`. -/
def concat (sources : List (FList α)) : FList α :=
  foldBack (fun xs acc => append xs acc) sources .nil

/-- `sys.maxsize`, the default `stop` sentinel used by `slice`. -/
def maxsize : Int := 2 ^ 63 - 1

/-- The value produced by `slice`: the `step <= 1` pipelines produce a list,
while the `step > 1` pipeline ends in the lazy-sequence stage and produces a
sequence of (position, element) pairs. -/
inductive SliceResult (α : Type) where
  | list (xs : FList α) : SliceResult α
  | pairSeq (ps : List (Int × α)) : SliceResult α
deriving DecidableEq

/-- Modelled from the spec: the `step > 1` stage of `slice`,
`compose(Seq.zip(Seq.init_infinite(identity)), Seq.filter(lambda t: t[0] % step == 0))`
— it pairs each element with its 0-based position and keeps the pairs whose
position is evenly divisible by `step` (the lazy-sequence collaborator
`fslash/collections/seq.py` is not part of the provided core). -/
def stepStage (step : Int) (xs : FList α) : List (Int × α) :=
  (List.map (fun t => ((t.1 : Int), t.2)) (List.enum (toList xs))).filter
    (fun t => t.1 % step == 0)

/-- `List.slice(start, stop, step)`: defaults `start = 0`,
`stop = sys.maxsize`, `step = 1`; builds the pipeline
`take(stop)` (when `stop >= 0`), `skip(start)` / `take_last(-start)`,
`skip_last(-stop)` (when `stop < 0`), then the step stage; raises
`TypeError` for a negative step before the pipeline runs. -/
def slice (astart astop astep : Option Int) (xs : FList α) : Except Err (SliceResult α) :=
  let s : Int := astart.getD 0
  let e : Int := astop.getD maxsize
  let st : Int := astep.getD 1
  if st < 0 then .error .typeError
  else
    match (if e ≥ 0 then take e xs else .ok xs) with
    | .error er => .error er
    | .ok r1 =>
      match (if s > 0 then skip s r1 else if s < 0 then take_last (-s) r1 else .ok r1) with
      | .error er => .error er
      | .ok r2 =>
        match (if e < 0 then skip_last (-e) r2 else .ok r2) with
        | .error er => .error er
        | .ok r3 =>
          if st > 1 then .ok (.pairSeq (stepStage st r3)) else .ok (.list r3)

/-! ### Basic lemmas -/

theorem toList_mkCons (h : α) (t : FList α) : toList (mkCons h t) = h :: toList t := rfl

theorem size_eq_length (xs : FList α) : size xs = (toList xs).length := by
  induction xs with
  | nil => rfl
  | cell h t c ih => simp [size, toList, ih, Nat.add_comm]

theorem toList_eq_nil_iff (xs : FList α) : toList xs = [] ↔ xs = .nil := by
  cases xs <;> simp [toList]

theorem isNil_iff (xs : FList α) : isNil xs = true ↔ xs = .nil := by
  cases xs <;> simp [isNil]

theorem toList_append (a b : FList α) : toList (append a b) = toList a ++ toList b := by
  induction a with
  | nil => rfl
  | cell h t c ih => simp [append, toList, mkCons, ih]

theorem toList_of_seq (l : List α) : toList (of_seq l) = l := by
  induction l with
  | nil => rfl
  | cons x l ih =>
    show toList (mkCons x (of_seq l)) = x :: l
    rw [toList_mkCons, ih]

/-! ### The cached-length invariant -/

theorem wfb_cell {h : α} {t : FList α} {n : Nat} (hw : wfb (.cell h t n) = true) :
    n = 1 + size t ∧ wfb t = true := by
  simpa [wfb, Bool.and_eq_true, beq_iff_eq] using hw

theorem wfb_fLen {xs : FList α} (hw : wfb xs = true) : fLen xs = size xs := by
  cases xs with
  | nil => rfl
  | cell h t n => simp [fLen, size, (wfb_cell hw).1]

theorem wfb_mkCons {t : FList α} (h : α) (hw : wfb t = true) : wfb (mkCons h t) = true := by
  simp [mkCons, wfb, hw, wfb_fLen hw]

theorem wfb_of_seq (l : List α) : wfb (of_seq l) = true := by
  induction l with
  | nil => rfl
  | cons x l ih => exact wfb_mkCons x ih

theorem wfb_append {b : FList α} (a : FList α) (hb : wfb b = true) :
    wfb (append a b) = true := by
  induction a with
  | nil => exact hb
  | cell h t c ih => exact wfb_mkCons h ih

theorem wfb_map (f : α → β) (xs : FList α) : wfb (map f xs) = true := by
  induction xs with
  | nil => rfl
  | cell h t c ih => exact wfb_mkCons (f h) ih

theorem wfb_filter (p : α → Bool) (xs : FList α) : wfb (filter p xs) = true := by
  induction xs with
  | nil => rfl
  | cell h t c ih =>
    show wfb (if p h then mkCons h (filter p t) else filter p t) = true
    split
    · exact wfb_mkCons h ih
    · exact ih

theorem wfb_of_option (o : Option α) : wfb (of_option o) = true := by
  cases o with
  | none => rfl
  | some v => exact wfb_mkCons v rfl

theorem wfb_choose (f : α → Option β) (xs : FList α) : wfb (choose f xs) = true := by
  induction xs with
  | nil => rfl
  | cell h t c ih => exact wfb_append _ ih

theorem wfb_collect (f : α → FList β) (xs : FList α) : wfb (collect f xs) = true := by
  induction xs with
  | nil => rfl
  | cell h t c ih => exact wfb_append _ ih

theorem wfb_concat (sources : List (FList α)) : wfb (concat sources) = true := by
  induction sources with
  | nil => rfl
  | cons x l ih => exact wfb_append x ih

/-! ### Structural equality -/

theorem fEq_iff_toList [DecidableEq α] (a b : FList α) :
    fEq a b = true ↔ toList a = toList b := by
  induction a generalizing b with
  | nil => cases b <;> simp [fEq, isNil, toList]
  | cell h t c ih =>
    cases b with
    | nil => simp [fEq, toList]
    | cell h2 t2 c2 => simp [fEq, toList, Bool.and_eq_true, ih]

theorem forall2_eq_iff (l m : List α) :
    List.Forall₂ (fun x y => x = y) l m ↔ l = m := by
  induction l generalizing m with
  | nil => cases m <;> simp
  | cons x l ih => cases m <;> simp [ih]

/-! ### Well-formedness of the results of the fallible operations -/

theorem except_map_ok {γ δ : Type} (f : γ → δ) (x : Except Err γ) (r : δ)
    (h : Except.map f x = .ok r) : ∃ q, x = .ok q ∧ r = f q := by
  cases x with
  | error e => simp [Except.map] at h
  | ok q => exact ⟨q, rfl, by simpa [Except.map] using h.symm⟩

theorem wfb_take_res (n : Int) (xs r : FList α) (h : take n xs = .ok r) :
    wfb r = true := by
  induction xs generalizing n r with
  | nil =>
    simp only [take] at h
    split at h
    · cases h; rfl
    · cases h
  | cell hd t c ih =>
    simp only [take] at h
    split at h
    · cases h; rfl
    · obtain ⟨q, hq, hr⟩ := except_map_ok _ _ _ h
      exact hr ▸ wfb_mkCons hd (ih _ _ hq)

theorem wfb_skip_res (n : Int) (xs r : FList α) (hw : wfb xs = true)
    (h : skip n xs = .ok r) : wfb r = true := by
  induction xs generalizing n with
  | nil =>
    simp only [skip] at h
    split at h
    · cases h; rfl
    · cases h
  | cell hd t c ih =>
    simp only [skip] at h
    split at h
    · cases h; exact hw
    · exact ih _ (wfb_cell hw).2 h

theorem wfb_take_last_res (n : Int) (xs r : FList α) (h : take_last n xs = .ok r) :
    wfb r = true := by
  induction xs generalizing r with
  | nil =>
    simp only [take_last] at h
    split at h
    · cases h; rfl
    · cases h
  | cell hd t c ih =>
    simp only [take_last] at h
    split at h
    · cases h; rfl
    · obtain ⟨q, hq, hr⟩ := except_map_ok _ _ _ h
      have hqw : wfb q = true := by
        split at hq
        · cases hq
          rename_i hnil
          rw [(isNil_iff t).mp hnil]
          rfl
        · exact ih _ hq
      subst hr
      split
      · exact wfb_mkCons hd hqw
      · exact hqw

theorem wfb_skip_last_res (n : Int) (xs r : FList α) (hw : wfb xs = true)
    (h : skip_last n xs = .ok r) : wfb r = true := by
  induction xs generalizing r with
  | nil =>
    simp only [skip_last] at h
    split at h
    · cases h; rfl
    · cases h
  | cell hd t c ih =>
    simp only [skip_last] at h
    split at h
    · cases h; exact hw
    · obtain ⟨q, hq, hr⟩ := except_map_ok _ _ _ h
      have hqw : wfb q = true := by
        split at hq
        · cases hq
          rename_i hnil
          rw [(isNil_iff t).mp hnil]
          rfl
        · exact ih _ (wfb_cell hw).2 hq
      subst hr
      split
      · exact wfb_mkCons hd hqw
      · exact hqw

theorem wfb_slice_res (a b c : Option Int) (xs r : FList α) (hw : wfb xs = true)
    (h : slice a b c xs = .ok (.list r)) : wfb r = true := by
  simp only [slice] at h
  split at h
  · cases h
  · split at h
    · cases h
    · rename_i r1 h1
      have hw1 : wfb r1 = true := by
        split at h1
        · exact wfb_take_res _ _ _ h1
        · cases h1; exact hw
      split at h
      · cases h
      · rename_i r2 h2
        have hw2 : wfb r2 = true := by
          split at h2
          · exact wfb_skip_res _ _ _ hw1 h2
          · split at h2
            · exact wfb_take_last_res _ _ _ h2
            · cases h2; exact hw1
        split at h
        · cases h
        · rename_i r3 h3
          have hw3 : wfb r3 = true := by
            split at h3
            · exact wfb_skip_last_res _ _ _ hw2 h3
            · cases h3; exact hw2
          split at h
          · cases h
          · cases h; exact hw3

/-! ### Value-level specifications of skip / take / skip_last / take_last -/

theorem take_ok_nat (m : Nat) (xs : FList α) (hm : m ≤ size xs) :
    ∃ r, take (m : Int) xs = .ok r ∧ toList r = (toList xs).take m := by
  induction xs generalizing m with
  | nil =>
    have hm0 : m = 0 := by simpa [size] using hm
    subst hm0
    exact ⟨.nil, by simp [take], rfl⟩
  | cell h t c ih =>
    cases m with
    | zero => exact ⟨.nil, by simp [take], rfl⟩
    | succ k =>
      have hk : k ≤ size t := by simp only [size] at hm; omega
      obtain ⟨q, hq, hql⟩ := ih k hk
      refine ⟨mkCons h q, ?_, ?_⟩
      · simp only [take]
        rw [if_neg (by omega : ¬((k + 1 : Nat) : Int) = 0)]
        have hc : ((k + 1 : Nat) : Int) - 1 = (k : Int) := by push_cast; ring
        rw [hc, hq]
        rfl
      · simp [toList_mkCons, hql, toList]

theorem skip_ok_nat (m : Nat) (xs : FList α) (hm : m ≤ size xs) :
    ∃ r, skip (m : Int) xs = .ok r ∧ toList r = (toList xs).drop m := by
  induction xs generalizing m with
  | nil =>
    have hm0 : m = 0 := by simpa [size] using hm
    subst hm0
    exact ⟨.nil, by simp [skip], rfl⟩
  | cell h t c ih =>
    cases m with
    | zero => exact ⟨.cell h t c, by simp [skip], rfl⟩
    | succ k =>
      have hk : k ≤ size t := by simp only [size] at hm; omega
      obtain ⟨q, hq, hql⟩ := ih k hk
      refine ⟨q, ?_, ?_⟩
      · simp only [skip]
        rw [if_neg (by omega : ¬((k + 1 : Nat) : Int) = 0)]
        have hc : ((k + 1 : Nat) : Int) - 1 = (k : Int) := by push_cast; ring
        rw [hc, hq]
      · simp [hql, toList]

theorem take_last_nil (count : Int) :
    take_last count (FList.nil : FList α) =
      if count = 0 then .ok .nil else .error .valueError := rfl

theorem take_last_cell (count : Int) (h : α) (t : FList α) (c : Nat) :
    take_last count (.cell h t c) =
      if count = 0 then .ok .nil
      else
        Except.map (fun queue => if (fLen queue : Int) < count then mkCons h queue else queue)
          (if isNil t then .ok t else take_last count t) := rfl

theorem skip_last_nil (count : Int) :
    skip_last count (FList.nil : FList α) =
      if count = 0 then .ok .nil else .error .valueError := rfl

theorem skip_last_cell (count : Int) (h : α) (t : FList α) (c : Nat) :
    skip_last count (.cell h t c) =
      if count = 0 then .ok (.cell h t c)
      else
        Except.map (fun queue => if (fLen t : Int) ≥ count then mkCons h queue else queue)
          (if isNil t then .ok t else skip_last count t) := rfl

theorem take_last_ok_nat (m : Nat) (xs : FList α) (hx : xs ≠ .nil ∨ m = 0) :
    ∃ r, take_last (m : Int) xs = .ok r ∧
      toList r = (toList xs).drop (size xs - m) := by
  induction xs with
  | nil =>
    have hm0 : m = 0 := by
      cases hx with
      | inl hh => exact absurd rfl hh
      | inr hh => exact hh
    subst hm0
    exact ⟨.nil, by simp [take_last_nil], rfl⟩
  | cell h t c ih =>
    cases m with
    | zero =>
      refine ⟨.nil, by simp [take_last_cell], ?_⟩
      simp [toList, size_eq_length, List.drop_length]
    | succ k =>
      have hk1 : ¬((k + 1 : Nat) : Int) = 0 := by omega
      cases t with
      | nil =>
        refine ⟨mkCons h .nil, ?_, ?_⟩
        · rw [take_last_cell, if_neg hk1]
          simp only [isNil]
          rw [if_pos trivial]
          simp only [Except.map]
          rw [if_pos (by simp [fLen])]
        · simp only [toList_mkCons, toList, size]
          rw [(by omega : 1 + 0 - (k + 1) = 0)]
          rfl
      | cell h2 t2 c2 =>
        obtain ⟨q, hq, hql⟩ := ih (Or.inl (by simp))
        have hqw : fLen q = size q := wfb_fLen (wfb_take_last_res _ _ _ hq)
        have hqs : size q
            = size (FList.cell h2 t2 c2) - (size (FList.cell h2 t2 c2) - (k + 1)) := by
          rw [size_eq_length q, hql, List.length_drop, ← size_eq_length]
        by_cases hcmp : size (FList.cell h2 t2 c2) < k + 1
        · refine ⟨mkCons h q, ?_, ?_⟩
          · rw [take_last_cell, if_neg hk1]
            simp only [isNil]
            rw [if_neg Bool.false_ne_true, hq]
            simp only [Except.map]
            rw [if_pos (by rw [hqw]; omega)]
          · rw [toList_mkCons, hql]
            have e1 : size (FList.cell h2 t2 c2) - (k + 1) = 0 := by omega
            have e2 : size (FList.cell h (FList.cell h2 t2 c2) c) - (k + 1) = 0 := by
              have e3 : size (FList.cell h (FList.cell h2 t2 c2) c)
                  = 1 + size (FList.cell h2 t2 c2) := rfl
              omega
            rw [e1, e2]
            rfl
        · refine ⟨q, ?_, ?_⟩
          · rw [take_last_cell, if_neg hk1]
            simp only [isNil]
            rw [if_neg Bool.false_ne_true, hq]
            simp only [Except.map]
            rw [if_neg (by rw [hqw]; omega)]
          · rw [hql]
            have e2 : size (FList.cell h (FList.cell h2 t2 c2) c) - (k + 1)
                = (size (FList.cell h2 t2 c2) - (k + 1)) + 1 := by
              have e3 : size (FList.cell h (FList.cell h2 t2 c2) c)
                  = 1 + size (FList.cell h2 t2 c2) := rfl
              omega
            rw [e2]
            rfl

theorem skip_last_ok_nat (m : Nat) (xs : FList α) (hw : wfb xs = true)
    (hx : xs ≠ .nil ∨ m = 0) :
    ∃ r, skip_last (m : Int) xs = .ok r ∧
      toList r = (toList xs).take (size xs - m) := by
  induction xs with
  | nil =>
    have hm0 : m = 0 := by
      cases hx with
      | inl hh => exact absurd rfl hh
      | inr hh => exact hh
    subst hm0
    exact ⟨.nil, by simp [skip_last_nil], rfl⟩
  | cell h t c ih =>
    have hwt : wfb t = true := (wfb_cell hw).2
    cases m with
    | zero =>
      refine ⟨.cell h t c, by simp [skip_last_cell], ?_⟩
      rw [Nat.sub_zero, size_eq_length, List.take_length]
    | succ k =>
      have hk1 : ¬((k + 1 : Nat) : Int) = 0 := by omega
      cases t with
      | nil =>
        refine ⟨.nil, ?_, ?_⟩
        · rw [skip_last_cell, if_neg hk1]
          simp only [isNil]
          rw [if_pos trivial]
          simp only [Except.map]
          rw [if_neg (by simp [fLen])]
        · simp only [toList, size]
          rw [(by omega : 1 + 0 - (k + 1) = 0)]
          rfl
      | cell h2 t2 c2 =>
        obtain ⟨q, hq, hql⟩ := ih hwt (Or.inl (by simp))
        have hft : fLen (FList.cell h2 t2 c2) = size (FList.cell h2 t2 c2) := wfb_fLen hwt
        by_cases hcmp : k + 1 ≤ size (FList.cell h2 t2 c2)
        · refine ⟨mkCons h q, ?_, ?_⟩
          · rw [skip_last_cell, if_neg hk1]
            simp only [isNil]
            rw [if_neg Bool.false_ne_true, hq]
            simp only [Except.map]
            rw [if_pos (by rw [hft]; omega)]
          · rw [toList_mkCons, hql]
            have e2 : size (FList.cell h (FList.cell h2 t2 c2) c) - (k + 1)
                = (size (FList.cell h2 t2 c2) - (k + 1)) + 1 := by
              have e3 : size (FList.cell h (FList.cell h2 t2 c2) c)
                  = 1 + size (FList.cell h2 t2 c2) := rfl
              omega
            rw [e2]
            rfl
        · refine ⟨q, ?_, ?_⟩
          · rw [skip_last_cell, if_neg hk1]
            simp only [isNil]
            rw [if_neg Bool.false_ne_true, hq]
            simp only [Except.map]
            rw [if_neg (by rw [hft]; omega)]
          · rw [hql]
            have e1 : size (FList.cell h2 t2 c2) - (k + 1) = 0 := by omega
            have e2 : size (FList.cell h (FList.cell h2 t2 c2) c) - (k + 1) = 0 := by
              have e3 : size (FList.cell h (FList.cell h2 t2 c2) c)
                  = 1 + size (FList.cell h2 t2 c2) := rfl
              omega
            rw [e1, e2]
            rfl

/-! ### Failure and success conditions -/

theorem skip_err (xs : FList α) (n : Int) (h1 : 0 < n) (h2 : (size xs : Int) < n) :
    skip n xs = .error .valueError := by
  induction xs generalizing n with
  | nil =>
    simp only [skip]
    rw [if_neg (by omega)]
  | cell hd t c ih =>
    simp only [size] at h2
    simp only [skip]
    rw [if_neg (by omega)]
    exact ih (n - 1) (by push_cast at h2; omega) (by push_cast at h2 ⊢; omega)

theorem take_err (xs : FList α) (n : Int) (h1 : 0 < n) (h2 : (size xs : Int) < n) :
    take n xs = .error .valueError := by
  induction xs generalizing n with
  | nil =>
    simp only [take]
    rw [if_neg (by omega)]
  | cell hd t c ih =>
    simp only [size] at h2
    simp only [take]
    rw [if_neg (by omega)]
    rw [ih (n - 1) (by push_cast at h2; omega) (by push_cast at h2 ⊢; omega)]
    rfl

theorem skip_last_ok_any (xs : FList α) (n : Int) (hx : xs ≠ .nil) :
    ∃ r, skip_last n xs = .ok r := by
  induction xs with
  | nil => exact absurd rfl hx
  | cell hd t c ih =>
    by_cases hn : n = 0
    · exact ⟨.cell hd t c, by rw [skip_last_cell, if_pos hn]⟩
    · cases t with
      | nil =>
        refine ⟨if (fLen (FList.nil : FList α) : Int) ≥ n then mkCons hd .nil else .nil, ?_⟩
        rw [skip_last_cell, if_neg hn]
        simp only [isNil]
        rw [if_pos trivial]
        rfl
      | cell h2 t2 c2 =>
        obtain ⟨q, hq⟩ := ih (by simp)
        refine ⟨if (fLen (FList.cell h2 t2 c2) : Int) ≥ n then mkCons hd q else q, ?_⟩
        rw [skip_last_cell, if_neg hn]
        simp only [isNil]
        rw [if_neg Bool.false_ne_true, hq]
        rfl

theorem take_last_ok_any (xs : FList α) (n : Int) (hx : xs ≠ .nil) :
    ∃ r, take_last n xs = .ok r := by
  induction xs with
  | nil => exact absurd rfl hx
  | cell hd t c ih =>
    by_cases hn : n = 0
    · exact ⟨.nil, by rw [take_last_cell, if_pos hn]⟩
    · cases t with
      | nil =>
        refine ⟨if (fLen (FList.nil : FList α) : Int) < n then mkCons hd .nil else .nil, ?_⟩
        rw [take_last_cell, if_neg hn]
        simp only [isNil]
        rw [if_pos trivial]
        rfl
      | cell h2 t2 c2 =>
        obtain ⟨q, hq⟩ := ih (by simp)
        refine ⟨if (fLen q : Int) < n then mkCons hd q else q, ?_⟩
        rw [take_last_cell, if_neg hn]
        simp only [isNil]
        rw [if_neg Bool.false_ne_true, hq]
        rfl

theorem skip_last_nil_err (n : Int) (hn : n ≠ 0) :
    skip_last n (FList.nil : FList α) = .error .valueError := by
  rw [skip_last_nil, if_neg hn]

theorem take_last_nil_err (n : Int) (hn : n ≠ 0) :
    take_last n (FList.nil : FList α) = .error .valueError := by
  rw [take_last_nil, if_neg hn]

/-! ### Claim theorems -/

/-- C1: the claim states that `slice()` with all three arguments omitted
succeeds and returns the list unchanged (`take(stop)` clamped from the front
with the `stop = +infinity` sentinel).  The code instead applies
`take(sys.maxsize)`, which is not clamped: `take` raises `ValueError` once
the list is exhausted, so `slice()` fails on every list of fewer than
`sys.maxsize` elements.  This theorem evaluates the code at the failing
input `of_seq([1, 2, 3]).slice()`. -/
theorem slice_noargs_fails_on_code :
    slice none none none (of_seq [1, 2, 3]) = .error .valueError := rfl

/-- C2 counterexample: on the non-empty list `[1]` with count `2` greater
than the length, `skip_last` succeeds (returning `Nil`) and `take_last`
succeeds (returning the whole list), refuting the claim that all four of
`skip`, `take`, `skip_last`, `take_last` fail whenever a positive count
exceeds the number of elements. -/
theorem counts_fail_counterexample :
    ((size (cons (1 : Nat) .nil) : Int) < 2 ∧ (0 : Int) < 2) ∧
    skip_last 2 (cons (1 : Nat) .nil) = .ok .nil ∧
    take_last 2 (cons (1 : Nat) .nil) = .ok (cons (1 : Nat) .nil) :=
  ⟨⟨by decide, by decide⟩, rfl, rfl⟩

/-- C2 (amended): for a count `n > 0` greater than the number of elements,
`skip` and `take` fail with `ValueError` (the source spelling of
InvalidOperation); `skip_last` and `take_last` fail exactly when the list is
empty — on a non-empty list they succeed no matter how large `n` is. -/
theorem counts_fail_amended (xs : FList α) (n : Int)
    (h1 : 0 < n) (h2 : (size xs : Int) < n) :
    skip n xs = .error .valueError ∧
    take n xs = .error .valueError ∧
    (xs = .nil → skip_last n xs = .error .valueError ∧
      take_last n xs = .error .valueError) ∧
    (xs ≠ .nil → (∃ r, skip_last n xs = .ok r) ∧ (∃ r, take_last n xs = .ok r)) := by
  refine ⟨skip_err xs n h1 h2, take_err xs n h1 h2, ?_, ?_⟩
  · rintro rfl
    exact ⟨skip_last_nil_err n (by omega), take_last_nil_err n (by omega)⟩
  · intro hx
    exact ⟨skip_last_ok_any xs n hx, take_last_ok_any xs n hx⟩

/-- C2 witness: the amended statement instantiated at the concrete list
`[1, 2]` and count `3`. -/
theorem counts_fail_amended_witness :
    skip 3 (of_seq [(1 : Nat), 2]) = .error .valueError ∧
    take 3 (of_seq [(1 : Nat), 2]) = .error .valueError ∧
    (of_seq [(1 : Nat), 2] = .nil → skip_last 3 (of_seq [(1 : Nat), 2]) = .error .valueError ∧
      take_last 3 (of_seq [(1 : Nat), 2]) = .error .valueError) ∧
    (of_seq [(1 : Nat), 2] ≠ .nil → (∃ r, skip_last 3 (of_seq [(1 : Nat), 2]) = .ok r) ∧
      (∃ r, take_last 3 (of_seq [(1 : Nat), 2]) = .ok r)) :=
  counts_fail_amended (of_seq [(1 : Nat), 2]) 3 (by decide) (by decide)

/-- C3: the claim states that for `step > 1` the result consists of the
source's elements themselves at sub-list positions divisible by the step.
The code's `step > 1` stage pairs each element with its 0-based position and
filters, but never projects back to the element, so
`slice(of_seq(range(9)), 1, 8, 2)` evaluates to the sequence of
(position, element) pairs `(0,1), (2,3), (4,5), (6,7)` — the elements at
original positions 1, 3, 5, 7, but as pairs, contradicting `slice`'s own
`List[TSource]` return annotation. -/
theorem slice_step_yields_pairs_on_code :
    slice (some 1) (some 8) (some 2) (of_seq [0, 1, 2, 3, 4, 5, 6, 7, 8]) =
      .ok (.pairSeq [(0, 1), (2, 3), (4, 5), (6, 7)]) := rfl

/-- C4: for `0 <= n <= length(xs)`, `take(n, xs)` and `skip(n, xs)` both
succeed and `take(n, xs).append(skip(n, xs)) == xs` (structural equality,
the source `__eq__`). -/
theorem take_skip_complementarity [DecidableEq α] (xs : FList α) (n : Int)
    (h1 : 0 ≤ n) (h2 : n ≤ (size xs : Int)) :
    ∃ t s, take n xs = .ok t ∧ skip n xs = .ok s ∧
      fEq (append t s) xs = true := by
  obtain ⟨m, rfl⟩ : ∃ m : Nat, n = (m : Int) := ⟨n.toNat, (Int.toNat_of_nonneg h1).symm⟩
  have hm : m ≤ size xs := by exact_mod_cast h2
  obtain ⟨t, ht, htl⟩ := take_ok_nat m xs hm
  obtain ⟨s, hs, hsl⟩ := skip_ok_nat m xs hm
  refine ⟨t, s, ht, hs, ?_⟩
  rw [fEq_iff_toList, toList_append, htl, hsl, List.take_append_drop]

/-- C4 witness: the complementarity instantiated at `[10, 20]` and `n = 1`. -/
theorem take_skip_complementarity_witness :
    ∃ t s, take 1 (of_seq [(10 : Nat), 20]) = .ok t ∧
      skip 1 (of_seq [(10 : Nat), 20]) = .ok s ∧
      fEq (append t s) (of_seq [(10 : Nat), 20]) = true :=
  take_skip_complementarity (of_seq [(10 : Nat), 20]) 1 (by decide) (by decide)

/-- C5: for a well-formed list (caches correct, as guaranteed for every list
built through the public constructors) and `0 <= n <= length(xs)`,
`skip_last(n, xs)` and `take_last(n, xs)` both succeed and
`skip_last(n, xs).append(take_last(n, xs)) == xs`: `take_last` keeps exactly
the last `n` elements and `skip_last` drops exactly the last `n`. -/
theorem take_last_skip_last_complementarity [DecidableEq α] (xs : FList α) (n : Int)
    (hw : wfb xs = true) (h1 : 0 ≤ n) (h2 : n ≤ (size xs : Int)) :
    ∃ a b, skip_last n xs = .ok a ∧ take_last n xs = .ok b ∧
      fEq (append a b) xs = true := by
  obtain ⟨m, rfl⟩ : ∃ m : Nat, n = (m : Int) := ⟨n.toNat, (Int.toNat_of_nonneg h1).symm⟩
  have hm : m ≤ size xs := by exact_mod_cast h2
  have hx : xs ≠ .nil ∨ m = 0 := by
    cases xs with
    | nil => exact Or.inr (by simpa [size] using hm)
    | cell hh tt cc => exact Or.inl (by simp)
  obtain ⟨a, ha, hal⟩ := skip_last_ok_nat m xs hw hx
  obtain ⟨b, hb, hbl⟩ := take_last_ok_nat m xs hx
  refine ⟨a, b, ha, hb, ?_⟩
  rw [fEq_iff_toList, toList_append, hal, hbl, List.take_append_drop]

/-- C5 witness: the end complementarity instantiated at `[1, 2, 3]`, `n = 2`. -/
theorem take_last_skip_last_complementarity_witness :
    ∃ a b, skip_last 2 (of_seq [(1 : Nat), 2, 3]) = .ok a ∧
      take_last 2 (of_seq [(1 : Nat), 2, 3]) = .ok b ∧
      fEq (append a b) (of_seq [(1 : Nat), 2, 3]) = true :=
  take_last_skip_last_complementarity (of_seq [(1 : Nat), 2, 3]) 2
    (by decide) (by decide) (by decide)

/-- C6: equality of lists is structural — `a == b` holds exactly when the
two lists have equal element counts and pairwise-equal elements in order;
equality is reflexive, `Empty == Empty`, and a non-empty list compared with
`Empty` (in either direction) is `False`. -/
theorem eq_structural [DecidableEq α] :
    (∀ a b : FList α, fEq a b = true ↔
      (size a = size b ∧ List.Forall₂ (fun x y => x = y) (toList a) (toList b))) ∧
    (∀ a : FList α, fEq a a = true) ∧
    (fEq (FList.nil : FList α) .nil = true) ∧
    (∀ (x : α) (t : FList α) (c : Nat),
      fEq (.cell x t c) .nil = false ∧ fEq .nil (.cell x t c) = false) := by
  refine ⟨?_, ?_, rfl, fun x t c => ⟨rfl, rfl⟩⟩
  · intro a b
    rw [fEq_iff_toList, forall2_eq_iff]
    constructor
    · intro hab
      exact ⟨by rw [size_eq_length, size_eq_length, hab], hab⟩
    · intro hab
      exact hab.2
  · intro a
    rw [fEq_iff_toList]

/-- C7: `head` and `tail` fail with `IndexError` (the source spelling of
EmptyCollection) exactly on the empty list and otherwise return the first
element and the tail; `try_head` never fails, returning `Some(head)` on a
cell and `Nothing` on the empty list. -/
theorem head_tail_tryHead :
    (∀ xs : FList α, head xs = .error .indexError ↔ xs = .nil) ∧
    (∀ xs : FList α, tail xs = .error .indexError ↔ xs = .nil) ∧
    (∀ (x : α) (t : FList α) (c : Nat),
      head (.cell x t c) = .ok x ∧ tail (.cell x t c) = .ok t ∧
        tryHead (.cell x t c) = some x) ∧
    tryHead (FList.nil : FList α) = none := by
  refine ⟨?_, ?_, fun x t c => ⟨rfl, rfl, rfl⟩, rfl⟩
  · intro xs
    cases xs <;> simp [head]
  · intro xs
    cases xs <;> simp [tail]

/-- C8: the cached-length invariant `_len(Cell(h,t)) == 1 + length(t)`,
`length(Empty) == 0` holds for every list reachable through the public
constructors and operations, and under it the cached length equals the
number of elements: the invariant holds of `Nil`, is established by
`cons`/`singleton`/`of_seq` and preserved by `append`, `map`, `filter`,
`choose`, `collect`, `take`, `skip`, `take_last`, `skip_last`, `concat` and
`slice`. -/
theorem length_invariant {α β : Type} :
    (∀ xs : FList α, wfb xs = true → fLen xs = size xs) ∧
    (∀ (x : α) (xs : FList α), wfb xs = true → wfb (cons x xs) = true) ∧
    (∀ v : α, wfb (singleton v) = true) ∧
    (∀ l : List α, wfb (of_seq l) = true) ∧
    (∀ a b : FList α, wfb b = true → wfb (append a b) = true) ∧
    (∀ (f : α → β) (xs : FList α), wfb (map f xs) = true) ∧
    (∀ (p : α → Bool) (xs : FList α), wfb (filter p xs) = true) ∧
    (∀ (f : α → Option β) (xs : FList α), wfb (choose f xs) = true) ∧
    (∀ (f : α → FList β) (xs : FList α), wfb (collect f xs) = true) ∧
    (∀ (n : Int) (xs r : FList α), take n xs = .ok r → wfb r = true) ∧
    (∀ (n : Int) (xs r : FList α), wfb xs = true → skip n xs = .ok r → wfb r = true) ∧
    (∀ (n : Int) (xs r : FList α), take_last n xs = .ok r → wfb r = true) ∧
    (∀ (n : Int) (xs r : FList α), wfb xs = true → skip_last n xs = .ok r → wfb r = true) ∧
    (∀ ls : List (FList α), wfb (concat ls) = true) ∧
    (∀ (a b c : Option Int) (xs r : FList α), wfb xs = true →
      slice a b c xs = .ok (.list r) → wfb r = true) :=
  ⟨fun _ hw => wfb_fLen hw, fun x _ hw => wfb_mkCons x hw,
    fun v => wfb_mkCons v rfl, wfb_of_seq, fun a _ hb => wfb_append a hb,
    wfb_map, wfb_filter, wfb_choose, wfb_collect,
    wfb_take_res, fun n xs r hw h => wfb_skip_res n xs r hw h,
    wfb_take_last_res, fun n xs r hw h => wfb_skip_last_res n xs r hw h,
    wfb_concat, fun a b c xs r hw h => wfb_slice_res a b c xs r hw h⟩

/-- C8 witness: the invariant instantiated at the concrete list
`cons(5, of_seq([7, 9]))`. -/
theorem length_invariant_witness :
    wfb (cons (5 : Nat) (of_seq [7, 9])) = true ∧
    fLen (cons (5 : Nat) (of_seq [7, 9])) = size (cons (5 : Nat) (of_seq [7, 9])) :=
  ⟨(@length_invariant Nat Nat).2.1 5 (of_seq [7, 9]) (by decide),
   (@length_invariant Nat Nat).1 (cons (5 : Nat) (of_seq [7, 9])) (by decide)⟩

/-- C9: `of_seq(xs)` iterated back head-to-tail produces exactly the input
sequence's elements in the same order, and `of_seq([])` is the empty list. -/
theorem of_seq_roundtrip :
    (∀ xs : List α, toList (of_seq xs) = xs) ∧ of_seq ([] : List α) = .nil :=
  ⟨toList_of_seq, rfl⟩

/-- C10: on a non-empty well-formed list with a count larger than the number
of elements, `take_last` succeeds and returns the whole list (up to the
source's structural equality) and `skip_last` succeeds and returns `Nil`;
neither raises. -/
theorem take_last_skip_last_overflow [DecidableEq α] (xs : FList α) (n : Int)
    (hw : wfb xs = true) (hx : xs ≠ .nil) (h2 : (size xs : Int) < n) :
    skip_last n xs = .ok .nil ∧
    ∃ b, take_last n xs = .ok b ∧ fEq b xs = true := by
  have h1 : 0 ≤ n := by omega
  obtain ⟨m, rfl⟩ : ∃ m : Nat, n = (m : Int) := ⟨n.toNat, (Int.toNat_of_nonneg h1).symm⟩
  have hms : size xs < m := by exact_mod_cast h2
  obtain ⟨a, ha, hal⟩ := skip_last_ok_nat m xs hw (Or.inl hx)
  obtain ⟨b, hb, hbl⟩ := take_last_ok_nat m xs (Or.inl hx)
  constructor
  · have ha0 : a = .nil := (toList_eq_nil_iff a).mp
      (by rw [hal, (by omega : size xs - m = 0)]; rfl)
    rw [ha0] at ha
    exact ha
  · refine ⟨b, hb, ?_⟩
    rw [fEq_iff_toList, hbl, (by omega : size xs - m = 0)]
    simp

/-- C10 witness: the overflow behavior instantiated at `[4, 5]`, `n = 7`. -/
theorem take_last_skip_last_overflow_witness :
    skip_last 7 (of_seq [(4 : Nat), 5]) = .ok .nil ∧
    ∃ b, take_last 7 (of_seq [(4 : Nat), 5]) = .ok b ∧
      fEq b (of_seq [(4 : Nat), 5]) = true :=
  take_last_skip_last_overflow (of_seq [(4 : Nat), 5]) 7
    (by decide) (by decide) (by decide)

end FList

end Fslash
